import Mathlib

/-!
Verification of the artifact-synchronization utility of the notebook
`Remote Model Registry Workflow.py` (functions `_get_dbfs_endpoint`,
`_copy_artifact`, `copy_artifacts`).

Strings are modelled as `List Char`.  The local filesystem at the resolved
source directory is modelled as an optional tree (`none` when the path does
not exist: `os.walk` then yields no triples, since it swallows the scandir
error by default).  The remote HTTP service is a parameter: a state-passing
function from a request to either success or a raised `MlflowException`.
-/

namespace ArtifactSync

abbrev Str := List Char

/-- Model of `mlflow.utils.string_utils.strip_prefix`: drop `pre` from the
front of `original` when `original` starts with it, else return `original`
unchanged. -/
def strip_prefix (original pre : Str) : Str :=
  if pre.isPrefixOf original then original.drop pre.length else original

/-- Model of Python `str.rstrip('/')`: remove every trailing `'/'`. -/
def rstripSlash (s : Str) : Str :=
  (s.reverse.dropWhile (fun c => c = '/')).reverse

/-- Model of `_get_dbfs_endpoint` (source line 87):
`"/dbfs/%s/%s" % (strip_prefix(artifact_uri.rstrip('/'), 'dbfs:/'), strip_prefix(artifact_path, '/'))`. -/
def get_dbfs_endpoint (artifact_uri artifact_path : Str) : Str :=
  "/dbfs/".data ++ strip_prefix (rstripSlash artifact_uri) "dbfs:/".data
    ++ "/".data ++ strip_prefix artifact_path "/".data

/-- Model of the two-argument `posixpath.join(a, b)`: if `b` starts with
`'/'` it replaces `a`; else they are joined, inserting `'/'` unless `a` is
empty or already ends with `'/'`. -/
def posixJoin (a b : Str) : Str :=
  if b.head? = some '/' then b
  else if a = [] ∨ a.getLast? = some '/' then a ++ b
  else a ++ '/' :: b

/-- Model of the two-argument `os.path.join(a, b)` on a host whose path
separator is `sep` (the drive-less behaviour shared by `posixpath.join` and
`ntpath.join`). -/
def osJoin (sep : Char) (a b : Str) : Str :=
  if b.head? = some sep then b
  else if a = [] ∨ a.getLast? = some sep then a ++ b
  else a ++ sep :: b

/-- Model of `os.path.basename` on a host with separator `sep`: the suffix
after the last separator. -/
def osBasename (sep : Char) (p : Str) : Str :=
  (p.reverse.takeWhile (fun c => c ≠ sep)).reverse

/-- Model of `mlflow.utils.file_utils.relative_path_to_artifact_path`: the
identity on a POSIX host (`sep = '/'`), and replacement of every host
separator by `'/'` otherwise (the `ntpath` branch generalized to an
arbitrary separator). -/
def relative_path_to_artifact_path (sep : Char) (p : Str) : Str :=
  if sep = '/' then p else p.map (fun c => if c = sep then '/' else c)

/-- A local directory tree: a file with its byte content, or a directory
with named entries (in `os.scandir` order). -/
inductive FsNode where
  | file (content : List Nat)
  | dir (entries : List (Str × FsNode))

/-- One file discovered by the traversal: the chain of directory names from
the walk root down to the file's directory, the file's name, and its
content. -/
abbrev Entry := List Str × Str × List Nat

/-- The `filenames` component of an `os.walk` triple: the plain files of a
directory's entry list, with their contents, in entry order. -/
def dirFilesOf : List (Str × FsNode) → List (Str × List Nat)
  | [] => []
  | (n, .file c) :: rest => (n, c) :: dirFilesOf rest
  | (_, .dir _) :: rest => dirFilesOf rest

mutual

/-- Model of the doubly-nested loop order of `copy_artifacts`: `os.walk`
yields each directory top-down (the root first, then each subdirectory in
entry order), and within a directory the inner loop runs over `filenames`
in entry order.  A fatal error aborts both loops at once, so the nested
iteration is faithfully the sequential iteration over this flattened
list. -/
def walkFileList : FsNode → List Entry
  | .file _ => []
  | .dir entries =>
      (dirFilesOf entries).map (fun q => (([] : List Str), q.1, q.2)) ++ walkSub entries

/-- The walk continued below the subdirectories of a directory's entry
list, each discovered file's chain extended with the subdirectory name. -/
def walkSub : List (Str × FsNode) → List Entry
  | [] => []
  | (n, e) :: rest => (walkFileList e).map (fun q => (n :: q.1, q.2)) ++ walkSub rest

end

mutual

/-- Specification-side enumeration of the files of a tree, written from the
spec's words: for every file in the tree, its relative subdirectory chain,
basename and content, by direct structural recursion (entry order,
depth-first). -/
def treeFiles : FsNode → List Entry
  | .file _ => []
  | .dir entries => treeFilesList entries

/-- The files contributed by an entry list, for `treeFiles`. -/
def treeFilesList : List (Str × FsNode) → List Entry
  | [] => []
  | (n, .file c) :: rest => (([] : List Str), n, c) :: treeFilesList rest
  | (n, .dir es) :: rest =>
      (treeFiles (.dir es)).map (fun q => (n :: q.1, q.2)) ++ treeFilesList rest

end

/-- The body of an upload request: either literal string data (the
`data=""` case, in which the file is never opened) or the streamed content
of an opened file object (the `data=f` case). -/
inductive Body where
  | str (s : Str)
  | stream (content : List Nat)
deriving DecidableEq

/-- An HTTP request issued through `http_request_safe`, as built by
`_copy_artifact`: endpoint, method, body, and the `allow_redirects` flag. -/
structure Request where
  endpoint : Str
  method : Str
  body : Body
  allowRedirects : Bool
deriving DecidableEq

/-- An `MlflowException` raised by `http_request_safe`, carrying its
`message`. -/
structure MlflowException where
  message : Str
deriving DecidableEq

/-- A Python exception escaping `_copy_artifact`: a propagated
`MlflowException`, or the `NameError` raised when an undefined name (such
as `throw` on source line 113) is evaluated. -/
inductive PyExc where
  | mlflow (e : MlflowException)
  | nameError (n : Str)
deriving DecidableEq

/-- The remote service behind `http_request_safe`, as a state-passing
function: given its state and a request, it answers success or raises an
`MlflowException`, and moves to a new state. -/
abbrev Remote (σ : Type) := σ → Request → Except MlflowException Unit × σ

/-- The literal matched on source line 109: `"File already exists"`. -/
def conflictMsg : Str := "File already exists".data

/-- Model of the Python substring test `needle in hay`: `needle` occurs
contiguously in `hay`. -/
def hasSubstr (needle : Str) : Str → Bool
  | [] => needle.isPrefixOf []
  | c :: rest => needle.isPrefixOf (c :: rest) || hasSubstr needle rest

/-- The request built by `_copy_artifact` (source lines 90-106): basename
from the local file path, endpoint from `_get_dbfs_endpoint` (joined under
`artifact_path` when that is non-empty), method POST, body empty when
`os.stat` reports size zero and the streamed file otherwise, and
`allow_redirects=False` on both paths. -/
def requestFor (sep : Char) (artifact_uri artifact_path local_file : Str)
    (content : List Nat) : Request :=
  let basename := osBasename sep local_file
  let http_endpoint :=
    if artifact_path ≠ [] then get_dbfs_endpoint artifact_uri (posixJoin artifact_path basename)
    else get_dbfs_endpoint artifact_uri basename
  if content.length = 0 then
    { endpoint := http_endpoint, method := "POST".data, body := Body.str [], allowRedirects := false }
  else
    { endpoint := http_endpoint, method := "POST".data, body := Body.stream content, allowRedirects := false }

/-- Model of `_copy_artifact` (source lines 89-113): build the request,
issue it, and handle a raised `MlflowException`: when its message contains
`"File already exists"` the exception is swallowed and the call returns
normally; otherwise the handler evaluates the undefined name `throw`,
raising `NameError`.  Returns the request that was issued, the remote
state after it, and the call's outcome. -/
def copy_artifact {σ : Type} (sep : Char) (remote : Remote σ) (st : σ)
    (local_file : Str) (content : List Nat) (artifact_uri artifact_path : Str) :
    Request × σ × Except PyExc Unit :=
  let req := requestFor sep artifact_uri artifact_path local_file content
  match remote st req with
  | (Except.ok _, st2) => (req, st2, Except.ok ())
  | (Except.error e, st2) =>
      if hasSubstr conflictMsg e.message then (req, st2, Except.ok ())
      else (req, st2, Except.error (PyExc.nameError "throw".data))

/-- Sequential processing of the walked files with fatal-error abort: each
step issues one request; a step that raises stops the iteration, and the
trace records exactly the requests that were attempted, in order. -/
def runSeq {σ α : Type} (f : σ → α → Request × σ × Except PyExc Unit) :
    σ → List α → List Request × σ × Except PyExc Unit
  | st, [] => ([], st, Except.ok ())
  | st, a :: rest =>
      match (f st a).2.2 with
      | Except.ok _ =>
          ((f st a).1 :: (runSeq f (f st a).2.1 rest).1,
           (runSeq f (f st a).2.1 rest).2.1, (runSeq f (f st a).2.1 rest).2.2)
      | Except.error e => ([(f st a).1], (f st a).2.1, Except.error e)

/-- The `artifact_subdir` computed by `copy_artifacts` for a walked
directory (source lines 123-127): `artifact_path` itself at the walk root,
else `posixpath.join(artifact_path, rel_path)` where `rel_path` is
`os.path.relpath(dirpath, local_dir)` converted by
`relative_path_to_artifact_path`.  `os.path.relpath` is modelled by its
contract on the dirpaths `os.walk` produces: the chain of directory names
joined by the host separator. -/
def artifactSubdir (sep : Char) (local_dir artifact_path : Str) (chain : List Str) : Str :=
  let dirpath := chain.foldl (osJoin sep) local_dir
  if dirpath ≠ local_dir then
    posixJoin artifact_path (relative_path_to_artifact_path sep (List.intercalate [sep] chain))
  else artifact_path

/-- The local file path `os.path.join(dirpath, name)` (source line 129),
with `dirpath` rebuilt from the walk root by the successive
`os.path.join` steps `os.walk` performs. -/
def filePathOf (sep : Char) (local_dir : Str) (chain : List Str) (name : Str) : Str :=
  osJoin sep (chain.foldl (osJoin sep) local_dir) name

/-- The request `copy_artifacts` ends up issuing for one walked file: a
pure function of the file's chain, name and content. -/
def fileReq (sep : Char) (artifact_uri artifact_path local_dir : Str) (entry : Entry) : Request :=
  requestFor sep artifact_uri (artifactSubdir sep local_dir artifact_path entry.1)
    (filePathOf sep local_dir entry.1 entry.2.1) entry.2.2

/-- One iteration of the inner loop of `copy_artifacts` (source line 130):
`_copy_artifact(file_path, artifact_uri, artifact_subdir)`. -/
def fileStep {σ : Type} (sep : Char) (remote : Remote σ)
    (artifact_uri artifact_path local_dir : Str) (st : σ) (entry : Entry) :
    Request × σ × Except PyExc Unit :=
  copy_artifact sep remote st (filePathOf sep local_dir entry.1 entry.2.1) entry.2.2
    artifact_uri (artifactSubdir sep local_dir artifact_path entry.1)

/-- Model of `copy_artifacts` (source lines 119-130): resolve
`local_dir` (the same string expression as `_get_dbfs_endpoint`, line 120),
walk the tree found there (`none` when the path does not exist — `os.walk`
yields nothing), and upload each file in walk order, aborting on the first
fatal error.  The reassignment `artifact_path = artifact_path or ''` is the
identity on the modelled string type.  Returns the trace of attempted
requests, the final remote state, and the outcome. -/
def copy_artifacts {σ : Type} (sep : Char) (remote : Remote σ) (tree : Option FsNode)
    (st : σ) (artifact_uri artifact_path : Str) :
    List Request × σ × Except PyExc Unit :=
  let local_dir := get_dbfs_endpoint artifact_uri artifact_path
  let entries := match tree with
    | none => []
    | some t => walkFileList t
  runSeq (fileStep sep remote artifact_uri artifact_path local_dir) st entries

/-- Modelled from the spec: the remote DBFS store behind the upload
endpoint, which is not part of this repository.  Its state is the list of
existing destination objects; a POST to an existing object fails with a
message containing "File already exists", and a POST to a fresh object
succeeds and creates it. -/
def dbfsRemote : Remote (List Str) := fun st req =>
  if req.endpoint ∈ st then (Except.error ⟨conflictMsg⟩, st)
  else (Except.ok (), req.endpoint :: st)

/-- Specification-side destination endpoint, written from the spec's
words: `{destinationRoot}/{relativeSubpath}/{basename}` with the relative
subpath joined by forward slashes. -/
def specEndpoint (destRoot : Str) (chain : List Str) (basename : Str) : Str :=
  destRoot ++ '/' :: List.intercalate ['/'] (chain ++ [basename])

/-- Well-formedness of one filesystem name on a host with separator `sep`:
non-empty and free of both `'/'` and the separator. -/
def wfName (sep : Char) (n : Str) : Bool :=
  decide (n ≠ []) && !(n.elem '/') && !(n.elem sep)

mutual

/-- Well-formedness of every name in a tree. -/
def wfTree (sep : Char) : FsNode → Bool
  | .file _ => true
  | .dir entries => wfEntries sep entries

/-- Well-formedness of every name under an entry list. -/
def wfEntries (sep : Char) : List (Str × FsNode) → Bool
  | [] => true
  | (n, e) :: rest => wfName sep n && wfTree sep e && wfEntries sep rest

end

/-! ### Generic list helpers -/

theorem takeWhile_middle {α : Type} (p : α → Bool) (x : α) (hx : p x = false) :
    ∀ (l r : List α), (∀ a ∈ l, p a = true) → List.takeWhile p (l ++ x :: r) = l := by
  intro l r hl
  induction l with
  | nil => simp [List.takeWhile, hx]
  | cons a l ih =>
      have ha : p a = true := hl a (by simp)
      rw [List.cons_append, List.takeWhile_cons_of_pos ha, ih (fun b hb => hl b (by simp [hb]))]

theorem dropWhile_all_append {α : Type} (p : α → Bool) :
    ∀ (l m : List α), (∀ a ∈ l, p a = true) → List.dropWhile p (l ++ m) = List.dropWhile p m := by
  intro l m hl
  induction l with
  | nil => simp
  | cons a l ih =>
      have ha : p a = true := hl a (by simp)
      simp only [List.cons_append, List.dropWhile, ha]
      exact ih (fun b hb => hl b (by simp [hb]))

theorem getLast?_append_right {α : Type} (l r : List α) (h : r ≠ []) :
    (l ++ r).getLast? = r.getLast? := by
  rw [List.getLast?_append]
  cases hr : r.getLast? with
  | some x => rfl
  | none => exact absurd (List.getLast?_eq_none_iff.mp hr) h

theorem mem_of_getLast?_eq {α : Type} {l : List α} {x : α} (h : l.getLast? = some x) : x ∈ l := by
  rcases List.mem_getLast?_eq_getLast (by rw [h]; exact rfl) with ⟨hne, hx⟩
  rw [hx]
  exact List.getLast_mem hne

theorem intercalate_single {α : Type} (s a : List α) : List.intercalate s [a] = a := by
  simp [List.intercalate]

theorem intercalate_cons₂ {α : Type} (s a b : List α) (l : List (List α)) :
    List.intercalate s (a :: b :: l) = a ++ s ++ List.intercalate s (b :: l) := by
  simp [List.intercalate, List.intersperse_cons_cons]

theorem intercalate_ne_nil {α : Type} (s : List α) :
    ∀ (l : List (List α)), l ≠ [] → (∀ c ∈ l, c ≠ []) → List.intercalate s l ≠ [] := by
  intro l
  induction l with
  | nil => intro h; exact absurd rfl h
  | cons a l ih =>
      intro _ hc
      cases l with
      | nil => rw [intercalate_single]; exact hc a (by simp)
      | cons b t =>
          rw [intercalate_cons₂]
          have : a ≠ [] := hc a (by simp)
          intro hcontra
          exact this (by
            rcases List.append_eq_nil.mp (List.append_eq_nil.mp hcontra).1 with ⟨h1, _⟩
            exact h1)

theorem head?_intercalate_cons {α : Type} (s a : List α) (l : List (List α)) (ha : a ≠ []) :
    (List.intercalate s (a :: l)).head? = a.head? := by
  cases l with
  | nil => rw [intercalate_single]
  | cons b t =>
      rw [intercalate_cons₂]
      cases a with
      | nil => exact absurd rfl ha
      | cons x xs => simp

theorem getLast?_intercalate_cons {α : Type} (s : List α) :
    ∀ (l : List (List α)) (a : List α), (∀ c ∈ a :: l, c ≠ []) →
      ∃ b, (a :: l).getLast? = some b ∧ (List.intercalate s (a :: l)).getLast? = b.getLast? := by
  intro l
  induction l with
  | nil =>
      intro a _
      exact ⟨a, rfl, by rw [intercalate_single]⟩
  | cons b t ih =>
      intro a hc
      rcases ih b (fun c hcm => hc c (by simp at hcm ⊢; tauto)) with ⟨z, hz1, hz2⟩
      refine ⟨z, ?_, ?_⟩
      · simpa using hz1
      · rw [intercalate_cons₂,
          getLast?_append_right _ _
            (intercalate_ne_nil s (b :: t) (by simp)
              (fun c hcm => hc c (by simp at hcm ⊢; tauto))), hz2]

theorem map_intercalate {α β : Type} (f : α → β) (s : List α) :
    ∀ (l : List (List α)),
      (List.intercalate s l).map f = List.intercalate (s.map f) (l.map (List.map f)) := by
  intro l
  induction l with
  | nil => simp [List.intercalate]
  | cons a t ih =>
      cases t with
      | nil => simp [intercalate_single]
      | cons b u =>
          rw [intercalate_cons₂, List.map_append, List.map_append, ih]
          simp only [List.map_cons]
          rw [intercalate_cons₂]

/-! ### Lemmas about the modelled path functions -/

theorem osJoin_eq (sep : Char) (a b : Str) (hb : b.head? ≠ some sep) (ha : a ≠ [])
    (hlast : a.getLast? ≠ some sep) : osJoin sep a b = a ++ sep :: b := by
  unfold osJoin
  rw [if_neg hb, if_neg (by push_neg; exact ⟨ha, hlast⟩)]

theorem posixJoin_eq (a b : Str) (hb : b.head? ≠ some '/') (ha : a ≠ [])
    (hlast : a.getLast? ≠ some '/') : posixJoin a b = a ++ '/' :: b := by
  unfold posixJoin
  rw [if_neg hb, if_neg (by push_neg; exact ⟨ha, hlast⟩)]

theorem head?_ne_of_not_mem {c : Char} {l : Str} (h : c ∉ l) : l.head? ≠ some c := by
  cases l with
  | nil => simp
  | cons x xs =>
      simp only [List.head?_cons, ne_eq, Option.some.injEq]
      intro hx
      exact h (by rw [hx]; simp)

theorem getLast?_ne_of_not_mem {c : Char} {l : Str} (h : c ∉ l) : l.getLast? ≠ some c := by
  intro hx
  exact h (mem_of_getLast?_eq hx)

theorem foldl_osJoin (sep : Char) :
    ∀ (chain : List Str) (a : Str), chain ≠ [] → (∀ c ∈ chain, c ≠ [] ∧ sep ∉ c) →
      a ≠ [] → a.getLast? ≠ some sep →
      chain.foldl (osJoin sep) a = a ++ sep :: List.intercalate [sep] chain := by
  intro chain
  induction chain with
  | nil => intro a h; exact absurd rfl h
  | cons c t ih =>
      intro a _ hc ha hlast
      have hcw := hc c (by simp)
      have hjoin : osJoin sep a c = a ++ sep :: c :=
        osJoin_eq sep a c (head?_ne_of_not_mem hcw.2) ha hlast
      cases t with
      | nil => simp [hjoin, intercalate_single]
      | cons d u =>
          rw [List.foldl_cons, hjoin,
            ih (a ++ sep :: c) (by simp)
              (fun x hx => hc x (by simp at hx ⊢; tauto))
              (by simp)
              (by rw [getLast?_append_right a (sep :: c) (by simp),
                    show sep :: c = [sep] ++ c from rfl,
                    getLast?_append_right [sep] c hcw.1]
                  exact getLast?_ne_of_not_mem hcw.2),
            intercalate_cons₂]
          simp

theorem osBasename_snoc (sep : Char) (a n : Str) (hn : sep ∉ n) :
    osBasename sep (a ++ sep :: n) = n := by
  unfold osBasename
  simp only [List.reverse_append, List.reverse_cons, List.append_assoc, List.singleton_append]
  rw [takeWhile_middle _ sep (by simp) n.reverse a.reverse
      (fun x hx => by
        simp only [decide_eq_true_eq, ne_eq]
        intro hxx
        exact hn (by rw [← hxx]; exact (List.mem_reverse).mp hx)),
    List.reverse_reverse]

theorem isPrefixOf_self (l : Str) : l.isPrefixOf l = true := by
  induction l with
  | nil => rfl
  | cons c t ih =>
      show ((c == c) && List.isPrefixOf t t) = true
      rw [ih, beq_self_eq_true]
      rfl

theorem slash_not_prefixOf (l : Str) (h : l.head? ≠ some '/') :
    "/".data.isPrefixOf l = false := by
  cases l with
  | nil => rfl
  | cons c t =>
      show (('/' == c) && List.isPrefixOf [] t) = false
      have hc : c ≠ '/' := by
        intro hcc
        exact h (by rw [hcc]; rfl)
      rw [beq_eq_false_iff_ne.mpr (fun hh => hc hh.symm)]
      rfl

theorem strip_prefix_slash_of_head_ne (l : Str) (h : l.head? ≠ some '/') :
    strip_prefix l "/".data = l := by
  unfold strip_prefix
  rw [show ("/".data.isPrefixOf l) = false from slash_not_prefixOf l h]
  simp

theorem strip_prefix_slash_cons (l : Str) : strip_prefix ('/' :: l) "/".data = l := by
  unfold strip_prefix
  rw [show ("/".data.isPrefixOf ('/' :: l)) = true by
    show (('/' == '/') && List.isPrefixOf [] l) = true
    rw [beq_self_eq_true]
    simp [List.isPrefixOf]]
  simp

theorem relative_path_forward_slash (sep : Char) :
    ∀ (chain : List Str), (∀ c ∈ chain, sep ∉ c ∧ '/' ∉ c) →
      relative_path_to_artifact_path sep (List.intercalate [sep] chain) =
        List.intercalate ['/'] chain := by
  intro chain hc
  unfold relative_path_to_artifact_path
  by_cases hsep : sep = '/'
  · rw [if_pos hsep, hsep]
  · rw [if_neg hsep, map_intercalate]
    have hmap : ∀ c ∈ chain, c.map (fun x => if x = sep then '/' else x) = c := by
      intro c hcm
      have : ∀ x ∈ c, (fun x => if x = sep then '/' else x) x = x := by
        intro x hx
        simp only
        rw [if_neg]
        intro hxx
        exact (hc c hcm).1 (by rw [← hxx]; exact hx)
      calc c.map (fun x => if x = sep then '/' else x) = c.map id := List.map_congr_left this
        _ = c := List.map_id c
    have hchain : chain.map (List.map (fun x => if x = sep then '/' else x)) = chain := by
      calc chain.map (List.map (fun x => if x = sep then '/' else x)) = chain.map id :=
            List.map_congr_left (fun c hcm => by rw [hmap c hcm]; rfl)
        _ = chain := List.map_id chain
    rw [hchain]
    simp

/-! ### The endpoint computed for one walked file -/

/-- Well-formedness of the caller-supplied relative artifact path: a
non-empty slash-free-at-the-edges relative path (no leading `'/'`, no
trailing `'/'`, and not ending in the host separator). -/
def wfPath (sep : Char) (p : Str) : Bool :=
  decide (p ≠ []) && decide (p.head? ≠ some '/') &&
    decide (p.getLast? ≠ some '/') && decide (p.getLast? ≠ some sep)

theorem wfName_spec {sep : Char} {n : Str} (h : wfName sep n = true) :
    n ≠ [] ∧ '/' ∉ n ∧ sep ∉ n := by
  unfold wfName at h
  simp only [Bool.and_eq_true, decide_eq_true_eq, Bool.not_eq_true'] at h
  refine ⟨h.1.1, ?_, ?_⟩
  · intro hm
    have := (List.elem_iff).mpr hm
    rw [h.1.2] at this
    exact Bool.false_ne_true this
  · intro hm
    have := (List.elem_iff).mpr hm
    rw [h.2] at this
    exact Bool.false_ne_true this

theorem wfPath_spec {sep : Char} {p : Str} (h : wfPath sep p = true) :
    p ≠ [] ∧ p.head? ≠ some '/' ∧ p.getLast? ≠ some '/' ∧ p.getLast? ≠ some sep := by
  unfold wfPath at h
  simp only [Bool.and_eq_true, decide_eq_true_eq] at h
  exact ⟨h.1.1.1, h.1.1.2, h.1.2, h.2⟩

theorem local_dir_eq (sep : Char) (uri p : Str) (hp : wfPath sep p = true) :
    get_dbfs_endpoint uri p =
      "/dbfs/".data ++ strip_prefix (rstripSlash uri) "dbfs:/".data ++ "/".data ++ p := by
  unfold get_dbfs_endpoint
  rw [strip_prefix_slash_of_head_ne p (wfPath_spec hp).2.1]

theorem intercalate_append_single {α : Type} (s n : List α) :
    ∀ (chain : List (List α)), chain ≠ [] →
      List.intercalate s (chain ++ [n]) = List.intercalate s chain ++ s ++ n := by
  intro chain
  induction chain with
  | nil => intro h; exact absurd rfl h
  | cons c t ih =>
      intro _
      cases t with
      | nil => rw [show ([c] ++ [n] : List (List α)) = [c, n] from rfl, intercalate_cons₂,
          intercalate_single, intercalate_single]
      | cons d u =>
          rw [show (c :: d :: u ++ [n] : List (List α)) = c :: d :: (u ++ [n]) from rfl]
          cases u with
          | nil =>
              rw [show (([] : List (List α)) ++ [n]) = [n] from rfl, intercalate_cons₂,
                intercalate_cons₂, intercalate_single, intercalate_cons₂, intercalate_single]
              simp [List.append_assoc]
          | cons e v =>
              rw [intercalate_cons₂, show (e :: v ++ [n] : List (List α)) =
                  (e :: v) ++ [n] from rfl, show (d :: ((e :: v) ++ [n]) : List (List α)) =
                  (d :: e :: v) ++ [n] from rfl, ih (by simp),
                intercalate_cons₂ s c d (e :: v)]
              simp [List.append_assoc]

theorem requestFor_endpoint (sep : Char) (uri ap lf : Str) (content : List Nat) :
    (requestFor sep uri ap lf content).endpoint =
      if ap ≠ [] then get_dbfs_endpoint uri (posixJoin ap (osBasename sep lf))
      else get_dbfs_endpoint uri (osBasename sep lf) := by
  unfold requestFor
  by_cases hz : content.length = 0 <;> simp [hz]

theorem requestFor_allowRedirects (sep : Char) (uri ap lf : Str) (content : List Nat) :
    (requestFor sep uri ap lf content).allowRedirects = false := by
  unfold requestFor
  by_cases hz : content.length = 0 <;> simp [hz]

theorem requestFor_body (sep : Char) (uri ap lf : Str) (content : List Nat) :
    (requestFor sep uri ap lf content).body =
      if content.length = 0 then Body.str [] else Body.stream content := by
  unfold requestFor
  by_cases hz : content.length = 0 <;> simp [hz]

theorem fileReq_expand (sep : Char) (uri p ld : Str) (chain : List Str) (name : Str)
    (content : List Nat) :
    fileReq sep uri p ld (chain, name, content) =
      requestFor sep uri (artifactSubdir sep ld p chain)
        (filePathOf sep ld chain name) content := rfl

/-- The endpoint `copy_artifacts` derives for a walked file equals the
spec's `{destinationRoot}/{relativeSubpath}/{basename}` with forward-slash
joining, for any host separator. -/
theorem fileReq_endpoint (sep : Char) (uri p : Str) (chain : List Str) (name : Str)
    (content : List Nat) (hp : wfPath sep p = true)
    (hchain : ∀ c ∈ chain, wfName sep c = true)
    (hname : wfName sep name = true) :
    (fileReq sep uri p (get_dbfs_endpoint uri p) (chain, name, content)).endpoint =
      specEndpoint (get_dbfs_endpoint uri p) chain name := by
  obtain ⟨hpne, hphead, hplast, hplastsep⟩ := wfPath_spec hp
  obtain ⟨hnne, hnslash, hnsep⟩ := wfName_spec hname
  have hldeq := local_dir_eq sep uri p hp
  have hldne : get_dbfs_endpoint uri p ≠ [] := by rw [hldeq]; simp
  have hldlast : (get_dbfs_endpoint uri p).getLast? = p.getLast? := by
    rw [hldeq, getLast?_append_right _ p hpne]
  rw [fileReq_expand, requestFor_endpoint]
  cases chain with
  | nil =>
      have hsubdir : artifactSubdir sep (get_dbfs_endpoint uri p) p [] = p := by
        unfold artifactSubdir
        simp
      have hfp : filePathOf sep (get_dbfs_endpoint uri p) [] name =
          get_dbfs_endpoint uri p ++ sep :: name := by
        unfold filePathOf
        rw [List.foldl_nil]
        exact osJoin_eq sep _ name (head?_ne_of_not_mem hnsep) hldne
          (by rw [hldlast]; exact hplastsep)
      rw [hsubdir, hfp, osBasename_snoc sep _ name hnsep, if_pos hpne,
        posixJoin_eq p name (head?_ne_of_not_mem hnslash) hpne hplast]
      unfold get_dbfs_endpoint specEndpoint
      rw [strip_prefix_slash_of_head_ne (p ++ '/' :: name)
          (by cases p with
              | nil => exact absurd rfl hpne
              | cons x xs => simpa using hphead),
        strip_prefix_slash_of_head_ne p hphead, List.nil_append, intercalate_single]
      simp [List.append_assoc]
  | cons c0 ct =>
      have hchne : c0 :: ct ≠ [] := by simp
      have hcw : ∀ c ∈ c0 :: ct, c ≠ [] ∧ sep ∉ c := by
        intro c hcm
        have := wfName_spec (hchain c hcm)
        exact ⟨this.1, this.2.2⟩
      have hcwf : ∀ c ∈ c0 :: ct, c ≠ [] ∧ '/' ∉ c := by
        intro c hcm
        have := wfName_spec (hchain c hcm)
        exact ⟨this.1, this.2.1⟩
      have hdirpath : (c0 :: ct).foldl (osJoin sep) (get_dbfs_endpoint uri p) =
          get_dbfs_endpoint uri p ++ sep :: List.intercalate [sep] (c0 :: ct) :=
        foldl_osJoin sep (c0 :: ct) _ hchne hcw hldne (by rw [hldlast]; exact hplastsep)
      have hdirne : (c0 :: ct).foldl (osJoin sep) (get_dbfs_endpoint uri p) ≠
          get_dbfs_endpoint uri p := by
        rw [hdirpath]
        intro hcontra
        have := congrArg List.length hcontra
        simp at this
      have hJ := relative_path_forward_slash sep (c0 :: ct)
        (fun c hcm => ⟨(wfName_spec (hchain c hcm)).2.2, (wfName_spec (hchain c hcm)).2.1⟩)
      have hJne : List.intercalate ['/'] (c0 :: ct) ≠ [] :=
        intercalate_ne_nil ['/'] (c0 :: ct) hchne (fun c hcm => (hcwf c hcm).1)
      have hJhead : (List.intercalate ['/'] (c0 :: ct)).head? ≠ some '/' := by
        rw [head?_intercalate_cons _ c0 ct (hcwf c0 (by simp)).1]
        exact head?_ne_of_not_mem (wfName_spec (hchain c0 (by simp))).2.1
      have hJlast : (List.intercalate ['/'] (c0 :: ct)).getLast? ≠ some '/' := by
        rcases getLast?_intercalate_cons ['/'] ct c0 (fun c hcm => (hcwf c hcm).1)
          with ⟨b, hb1, hb2⟩
        rw [hb2]
        exact getLast?_ne_of_not_mem (fun hm => (hcwf b (mem_of_getLast?_eq hb1)).2 hm)
      have hJ'ne : List.intercalate [sep] (c0 :: ct) ≠ [] :=
        intercalate_ne_nil [sep] (c0 :: ct) hchne (fun c hcm => (hcw c hcm).1)
      have hJ'last : (List.intercalate [sep] (c0 :: ct)).getLast? ≠ some sep := by
        rcases getLast?_intercalate_cons [sep] ct c0 (fun c hcm => (hcw c hcm).1)
          with ⟨b, hb1, hb2⟩
        rw [hb2]
        exact getLast?_ne_of_not_mem (fun hm => (hcw b (mem_of_getLast?_eq hb1)).2 hm)
      have hsubdir : artifactSubdir sep (get_dbfs_endpoint uri p) p (c0 :: ct) =
          p ++ '/' :: List.intercalate ['/'] (c0 :: ct) := by
        unfold artifactSubdir
        rw [if_pos hdirne, hJ, posixJoin_eq p _ hJhead hpne hplast]
      have hfp : filePathOf sep (get_dbfs_endpoint uri p) (c0 :: ct) name =
          (get_dbfs_endpoint uri p ++ sep :: List.intercalate [sep] (c0 :: ct))
            ++ sep :: name := by
        unfold filePathOf
        rw [hdirpath]
        apply osJoin_eq sep _ name (head?_ne_of_not_mem hnsep) (by simp)
        rw [getLast?_append_right _ _ (by simp),
          show sep :: List.intercalate [sep] (c0 :: ct) =
            [sep] ++ List.intercalate [sep] (c0 :: ct) from rfl,
          getLast?_append_right [sep] _ hJ'ne]
        exact hJ'last
      have hsubne : p ++ '/' :: List.intercalate ['/'] (c0 :: ct) ≠ [] := by simp
      have hsubhead : (p ++ '/' :: List.intercalate ['/'] (c0 :: ct)).head? ≠ some '/' := by
        cases p with
        | nil => exact absurd rfl hpne
        | cons x xs => simpa using hphead
      have hsublast : (p ++ '/' :: List.intercalate ['/'] (c0 :: ct)).getLast? ≠
          some '/' := by
        rw [getLast?_append_right p _ (by simp),
          show '/' :: List.intercalate ['/'] (c0 :: ct) =
            ['/'] ++ List.intercalate ['/'] (c0 :: ct) from rfl,
          getLast?_append_right ['/'] _ hJne]
        exact hJlast
      rw [hsubdir, hfp, osBasename_snoc sep _ name hnsep, if_pos hsubne,
        posixJoin_eq _ name (head?_ne_of_not_mem hnslash) hsubne hsublast]
      unfold get_dbfs_endpoint specEndpoint
      rw [strip_prefix_slash_of_head_ne _ (by
            cases p with
            | nil => exact absurd rfl hpne
            | cons x xs => simpa using hsubhead),
        strip_prefix_slash_of_head_ne p hphead,
        intercalate_append_single ['/'] name (c0 :: ct) hchne]
      simp [List.append_assoc]

/-! ### Trace lemmas for the sequential run -/

theorem copy_artifact_fst {σ : Type} (sep : Char) (remote : Remote σ) (st : σ)
    (lf : Str) (content : List Nat) (uri ap : Str) :
    (copy_artifact sep remote st lf content uri ap).1 = requestFor sep uri ap lf content := by
  unfold copy_artifact
  rcases h : remote st (requestFor sep uri ap lf content) with ⟨r, st2⟩
  cases r with
  | ok u => simp [h]
  | error e =>
      simp only [h]
      split <;> rfl

theorem fileStep_fst {σ : Type} (sep : Char) (remote : Remote σ) (uri ap ld : Str)
    (st : σ) (e : Entry) :
    (fileStep sep remote uri ap ld st e).1 = fileReq sep uri ap ld e :=
  copy_artifact_fst sep remote st _ _ uri _

theorem runSeq_cons {σ α : Type} (f : σ → α → Request × σ × Except PyExc Unit)
    (st : σ) (a : α) (rest : List α) :
    runSeq f st (a :: rest) =
      match (f st a).2.2 with
      | Except.ok _ =>
          ((f st a).1 :: (runSeq f (f st a).2.1 rest).1,
           (runSeq f (f st a).2.1 rest).2.1, (runSeq f (f st a).2.1 rest).2.2)
      | Except.error e => ([(f st a).1], (f st a).2.1, Except.error e) := rfl

theorem runSeq_cons_ok {σ α : Type} (f : σ → α → Request × σ × Except PyExc Unit)
    (st : σ) (a : α) (rest : List α) (u : Unit)
    (h : (f st a).2.2 = Except.ok u) :
    runSeq f st (a :: rest) =
      ((f st a).1 :: (runSeq f (f st a).2.1 rest).1,
       (runSeq f (f st a).2.1 rest).2.1, (runSeq f (f st a).2.1 rest).2.2) := by
  rw [runSeq_cons, h]

theorem runSeq_cons_error {σ α : Type} (f : σ → α → Request × σ × Except PyExc Unit)
    (st : σ) (a : α) (rest : List α) (e : PyExc)
    (h : (f st a).2.2 = Except.error e) :
    runSeq f st (a :: rest) = ([(f st a).1], (f st a).2.1, Except.error e) := by
  rw [runSeq_cons, h]

theorem runSeq_ok_trace {σ α : Type} (f : σ → α → Request × σ × Except PyExc Unit)
    (g : α → Request) (hf : ∀ st a, (f st a).1 = g a) :
    ∀ (l : List α) (st : σ), (runSeq f st l).2.2 = Except.ok () →
      (runSeq f st l).1 = l.map g := by
  intro l
  induction l with
  | nil => intro st _; rfl
  | cons a rest ih =>
      intro st hok
      cases h : (f st a).2.2 with
      | ok u =>
          rw [runSeq_cons_ok f st a rest u h] at hok ⊢
          simp only at hok ⊢
          rw [hf st a, ih ((f st a).2.1) hok]
          rfl
      | error e =>
          rw [runSeq_cons_error f st a rest e h] at hok
          exact Except.noConfusion hok

/-! ### The walk enumerates exactly the tree's files -/

theorem perm_swap_blocks {α : Type} (A W B : List α) :
    (A ++ (W ++ B)).Perm (W ++ (A ++ B)) := by
  rw [show A ++ (W ++ B) = (A ++ W) ++ B from (List.append_assoc A W B).symm,
    show W ++ (A ++ B) = (W ++ A) ++ B from (List.append_assoc W A B).symm]
  exact List.Perm.append List.perm_append_comm (List.Perm.refl B)

mutual

theorem walk_perm : ∀ t : FsNode, (walkFileList t).Perm (treeFiles t)
  | .file _ => List.Perm.refl []
  | .dir es => by
      rw [show walkFileList (.dir es) =
        (dirFilesOf es).map (fun q => (([] : List Str), q.1, q.2)) ++ walkSub es from rfl,
        show treeFiles (.dir es) = treeFilesList es from rfl]
      exact walkSub_perm es

theorem walkSub_perm : ∀ es : List (Str × FsNode),
    ((dirFilesOf es).map (fun q => (([] : List Str), q.1, q.2)) ++ walkSub es).Perm
      (treeFilesList es)
  | [] => List.Perm.refl []
  | (n, .file c) :: rest => by
      rw [show dirFilesOf ((n, .file c) :: rest) = (n, c) :: dirFilesOf rest from rfl,
        show walkSub ((n, .file c) :: rest) =
          (walkFileList (.file c)).map (fun q => (n :: q.1, q.2)) ++ walkSub rest from rfl,
        show walkFileList (.file c) = [] from rfl,
        show treeFilesList ((n, .file c) :: rest) =
          (([] : List Str), n, c) :: treeFilesList rest from rfl]
      simp only [List.map_cons, List.map_nil, List.nil_append, List.cons_append]
      exact (walkSub_perm rest).cons _
  | (n, .dir ds) :: rest => by
      rw [show dirFilesOf ((n, .dir ds) :: rest) = dirFilesOf rest from rfl,
        show walkSub ((n, .dir ds) :: rest) =
          (walkFileList (.dir ds)).map (fun q => (n :: q.1, q.2)) ++ walkSub rest from rfl,
        show treeFilesList ((n, .dir ds) :: rest) =
          (treeFiles (.dir ds)).map (fun q => (n :: q.1, q.2)) ++ treeFilesList rest from rfl]
      exact List.Perm.trans
        (perm_swap_blocks ((dirFilesOf rest).map (fun q => (([] : List Str), q.1, q.2)))
          ((walkFileList (.dir ds)).map (fun q => (n :: q.1, q.2))) (walkSub rest))
        (List.Perm.append ((walk_perm (.dir ds)).map _) (walkSub_perm rest))

end

/-! ### Well-formedness of walked entries -/

theorem dirFilesOf_wf (sep : Char) :
    ∀ es : List (Str × FsNode), wfEntries sep es = true →
      ∀ q ∈ dirFilesOf es, wfName sep q.1 = true := by
  intro es
  induction es with
  | nil => intro _ q hq; exact absurd hq (by simp [dirFilesOf])
  | cons e rest ih =>
      intro hwf q hq
      rcases e with ⟨n, node⟩
      have hwf' : wfName sep n = true ∧ wfTree sep node = true ∧ wfEntries sep rest = true := by
        have : (wfName sep n && wfTree sep node && wfEntries sep rest) = true := hwf
        simp only [Bool.and_eq_true] at this
        exact ⟨this.1.1, this.1.2, this.2⟩
      cases node with
      | file c =>
          rw [show dirFilesOf ((n, .file c) :: rest) = (n, c) :: dirFilesOf rest from rfl] at hq
          rcases List.mem_cons.mp hq with h | h
          · rw [h]; exact hwf'.1
          · exact ih hwf'.2.2 q h
      | dir ds =>
          rw [show dirFilesOf ((n, .dir ds) :: rest) = dirFilesOf rest from rfl] at hq
          exact ih hwf'.2.2 q hq

mutual

theorem walk_wf (sep : Char) : ∀ t : FsNode, wfTree sep t = true →
    ∀ e ∈ walkFileList t, (∀ c ∈ e.1, wfName sep c = true) ∧ wfName sep e.2.1 = true
  | .file _ => by intro _ e he; exact absurd he (by simp [walkFileList])
  | .dir es => by
      intro hwf e he
      rw [show walkFileList (.dir es) =
        (dirFilesOf es).map (fun q => (([] : List Str), q.1, q.2)) ++ walkSub es from rfl] at he
      rcases List.mem_append.mp he with h | h
      · rcases List.mem_map.mp h with ⟨q, hq, hqe⟩
        rw [← hqe]
        exact ⟨by intro c hc; exact absurd hc (by simp),
          dirFilesOf_wf sep es (by exact hwf) q hq⟩
      · exact walkSub_wf sep es (by exact hwf) e h

theorem walkSub_wf (sep : Char) : ∀ es : List (Str × FsNode), wfEntries sep es = true →
    ∀ e ∈ walkSub es, (∀ c ∈ e.1, wfName sep c = true) ∧ wfName sep e.2.1 = true
  | [] => by intro _ e he; exact absurd he (by simp [walkSub])
  | (n, node) :: rest => by
      intro hwf e he
      have hwf' : wfName sep n = true ∧ wfTree sep node = true ∧
          wfEntries sep rest = true := by
        have : (wfName sep n && wfTree sep node && wfEntries sep rest) = true := hwf
        simp only [Bool.and_eq_true] at this
        exact ⟨this.1.1, this.1.2, this.2⟩
      rw [show walkSub ((n, node) :: rest) =
        (walkFileList node).map (fun q => (n :: q.1, q.2)) ++ walkSub rest from rfl] at he
      rcases List.mem_append.mp he with h | h
      · rcases List.mem_map.mp h with ⟨q, hq, hqe⟩
        have hqwf := walk_wf sep node hwf'.2.1 q hq
        rw [← hqe]
        refine ⟨?_, hqwf.2⟩
        intro c hc
        rcases List.mem_cons.mp hc with hcn | hcq
        · rw [hcn]; exact hwf'.1
        · exact hqwf.1 c hcq
      · exact walkSub_wf sep rest hwf'.2.2 e h

end

/-! ### Behaviour of one upload call -/

theorem copy_artifact_spec {σ : Type} (sep : Char) (remote : Remote σ) (st : σ)
    (lf : Str) (content : List Nat) (uri ap : Str) :
    copy_artifact sep remote st lf content uri ap =
      (requestFor sep uri ap lf content,
       (remote st (requestFor sep uri ap lf content)).2,
       match (remote st (requestFor sep uri ap lf content)).1 with
       | Except.ok _ => Except.ok ()
       | Except.error e =>
           if hasSubstr conflictMsg e.message then Except.ok ()
           else Except.error (PyExc.nameError "throw".data)) := by
  unfold copy_artifact
  rcases h : remote st (requestFor sep uri ap lf content) with ⟨r, st2⟩
  cases r with
  | ok u => simp [h]
  | error e =>
      simp only [h]
      by_cases hc : hasSubstr conflictMsg e.message <;> simp [hc]

theorem fileStep_spec {σ : Type} (sep : Char) (remote : Remote σ) (uri p ld : Str)
    (st : σ) (a : Entry) :
    fileStep sep remote uri p ld st a =
      (fileReq sep uri p ld a,
       (remote st (fileReq sep uri p ld a)).2,
       match (remote st (fileReq sep uri p ld a)).1 with
       | Except.ok _ => Except.ok ()
       | Except.error e =>
           if hasSubstr conflictMsg e.message then Except.ok ()
           else Except.error (PyExc.nameError "throw".data)) :=
  copy_artifact_spec sep remote st _ _ uri _

theorem hasSubstr_self (l : Str) : hasSubstr l l = true := by
  cases l with
  | nil => rfl
  | cons c rest =>
      show (List.isPrefixOf (c :: rest) (c :: rest) || hasSubstr (c :: rest) rest) = true
      rw [isPrefixOf_self]
      rfl

/-! ### Runs against the modelled DBFS store -/

theorem fileStep_dbfs_mem (sep : Char) (uri p ld : Str) (st : List Str) (a : Entry)
    (h : (fileReq sep uri p ld a).endpoint ∈ st) :
    fileStep sep dbfsRemote uri p ld st a = (fileReq sep uri p ld a, st, Except.ok ()) := by
  rw [fileStep_spec]
  have hrem : dbfsRemote st (fileReq sep uri p ld a) = (Except.error ⟨conflictMsg⟩, st) := by
    unfold dbfsRemote
    rw [if_pos h]
  rw [hrem]
  simp [hasSubstr_self]

theorem fileStep_dbfs_not_mem (sep : Char) (uri p ld : Str) (st : List Str) (a : Entry)
    (h : (fileReq sep uri p ld a).endpoint ∉ st) :
    fileStep sep dbfsRemote uri p ld st a =
      (fileReq sep uri p ld a, (fileReq sep uri p ld a).endpoint :: st, Except.ok ()) := by
  rw [fileStep_spec]
  have hrem : dbfsRemote st (fileReq sep uri p ld a) =
      (Except.ok (), (fileReq sep uri p ld a).endpoint :: st) := by
    unfold dbfsRemote
    rw [if_neg h]
  rw [hrem]

theorem runSeq_dbfs_ok_covers (sep : Char) (uri p ld : Str) :
    ∀ (l : List Entry) (st : List Str),
      (runSeq (fileStep sep dbfsRemote uri p ld) st l).2.2 = Except.ok () →
      (∀ e ∈ l, (fileReq sep uri p ld e).endpoint ∈
          (runSeq (fileStep sep dbfsRemote uri p ld) st l).2.1) ∧
      (∀ x ∈ st, x ∈ (runSeq (fileStep sep dbfsRemote uri p ld) st l).2.1) := by
  intro l
  induction l with
  | nil =>
      intro st _
      exact ⟨fun e he => absurd he (by simp), fun x hx => hx⟩
  | cons a rest ih =>
      intro st hok
      by_cases hmem : (fileReq sep uri p ld a).endpoint ∈ st
      · have hstep := fileStep_dbfs_mem sep uri p ld st a hmem
        have hrun : runSeq (fileStep sep dbfsRemote uri p ld) st (a :: rest) =
            (fileReq sep uri p ld a :: (runSeq (fileStep sep dbfsRemote uri p ld) st rest).1,
             (runSeq (fileStep sep dbfsRemote uri p ld) st rest).2.1,
             (runSeq (fileStep sep dbfsRemote uri p ld) st rest).2.2) := by
          rw [runSeq_cons_ok _ _ _ _ () (by rw [hstep]), hstep]
        have hok2 : (runSeq (fileStep sep dbfsRemote uri p ld) st rest).2.2 =
            Except.ok () := by
          rw [hrun] at hok
          exact hok
        have hfin : (runSeq (fileStep sep dbfsRemote uri p ld) st (a :: rest)).2.1 =
            (runSeq (fileStep sep dbfsRemote uri p ld) st rest).2.1 := by
          rw [hrun]
        obtain ⟨ihcov, ihmono⟩ := ih st hok2
        rw [hfin]
        refine ⟨?_, ihmono⟩
        intro e he
        rcases List.mem_cons.mp he with h | h
        · rw [h]
          exact ihmono _ hmem
        · exact ihcov e h
      · have hstep := fileStep_dbfs_not_mem sep uri p ld st a hmem
        have hrun : runSeq (fileStep sep dbfsRemote uri p ld) st (a :: rest) =
            (fileReq sep uri p ld a ::
              (runSeq (fileStep sep dbfsRemote uri p ld)
                ((fileReq sep uri p ld a).endpoint :: st) rest).1,
             (runSeq (fileStep sep dbfsRemote uri p ld)
                ((fileReq sep uri p ld a).endpoint :: st) rest).2.1,
             (runSeq (fileStep sep dbfsRemote uri p ld)
                ((fileReq sep uri p ld a).endpoint :: st) rest).2.2) := by
          rw [runSeq_cons_ok _ _ _ _ () (by rw [hstep]), hstep]
        have hok2 : (runSeq (fileStep sep dbfsRemote uri p ld)
            ((fileReq sep uri p ld a).endpoint :: st) rest).2.2 = Except.ok () := by
          rw [hrun] at hok
          exact hok
        have hfin : (runSeq (fileStep sep dbfsRemote uri p ld) st (a :: rest)).2.1 =
            (runSeq (fileStep sep dbfsRemote uri p ld)
              ((fileReq sep uri p ld a).endpoint :: st) rest).2.1 := by
          rw [hrun]
        obtain ⟨ihcov, ihmono⟩ := ih ((fileReq sep uri p ld a).endpoint :: st) hok2
        rw [hfin]
        constructor
        · intro e he
          rcases List.mem_cons.mp he with h | h
          · rw [h]
            exact ihmono _ (List.mem_cons_self _ _)
          · exact ihcov e h
        · exact fun x hx => ihmono x (List.mem_cons_of_mem _ hx)

theorem runSeq_dbfs_all_exist (sep : Char) (uri p ld : Str) :
    ∀ (l : List Entry) (st : List Str),
      (∀ e ∈ l, (fileReq sep uri p ld e).endpoint ∈ st) →
      runSeq (fileStep sep dbfsRemote uri p ld) st l =
        (l.map (fileReq sep uri p ld), st, Except.ok ()) := by
  intro l
  induction l with
  | nil => intro st _; rfl
  | cons a rest ih =>
      intro st hall
      have hstep := fileStep_dbfs_mem sep uri p ld st a (hall a (by simp))
      rw [runSeq_cons_ok _ _ _ _ () (by rw [hstep]), hstep,
        ih st (fun e he => hall e (List.mem_cons_of_mem _ he))]
      rfl

/-! ### Generic trace lemmas used by the claims -/

theorem runSeq_trace_redirects {σ : Type} (sep : Char) (remote : Remote σ)
    (uri p ld : Str) :
    ∀ (l : List Entry) (st : σ) (req : Request),
      req ∈ (runSeq (fileStep sep remote uri p ld) st l).1 →
      req.allowRedirects = false := by
  intro l
  induction l with
  | nil => intro st req h; exact absurd h (by simp [runSeq])
  | cons a rest ih =>
      intro st req h
      rw [runSeq_cons] at h
      cases hc : (fileStep sep remote uri p ld st a).2.2 with
      | ok u =>
          rw [hc] at h
          have h2 : req ∈ (fileStep sep remote uri p ld st a).1 ::
              (runSeq (fileStep sep remote uri p ld)
                ((fileStep sep remote uri p ld st a).2.1) rest).1 := h
          rcases List.mem_cons.mp h2 with h3 | h3
          · rw [h3, fileStep_fst]
            exact requestFor_allowRedirects sep uri _ _ _
          · exact ih _ req h3
      | error e =>
          rw [hc] at h
          have h2 : req ∈ [(fileStep sep remote uri p ld st a).1] := h
          rw [List.mem_singleton] at h2
          rw [h2, fileStep_fst]
          exact requestFor_allowRedirects sep uri _ _ _

/-! ### Shared concrete fixtures for the witnesses -/

/-- The spec section 8 example tree: `model/MLmodel` (one byte) and
`model/data/model.h5` (empty). -/
def exampleTree : FsNode :=
  .dir [("MLmodel".data, .file [77]),
        ("data".data, .dir [("model.h5".data, .file [])])]

/-- The requests a run over `exampleTree` issues. -/
def exampleTrace : List Request :=
  [{ endpoint := "/dbfs/registry/run123/model/MLmodel".data, method := "POST".data,
     body := Body.stream [77], allowRedirects := false },
   { endpoint := "/dbfs/registry/run123/model/data/model.h5".data, method := "POST".data,
     body := Body.str [], allowRedirects := false }]

/-- The destination-store contents after that run. -/
def exampleState : List Str :=
  ["/dbfs/registry/run123/model/data/model.h5".data,
   "/dbfs/registry/run123/model/MLmodel".data]

/-! ### The claims -/

/-- C1: a successful `copy_artifacts(artifact_uri, artifact_path)` call
uploads exactly the files of the source tree: the multiset of destination
endpoints of its requests equals, for every file of the tree, the endpoint
formed from the destination root, the file's relative subdirectory chain
and its basename, joined with forward slashes regardless of the host's
native path separator. -/
theorem copy_artifacts_uploads_exactly_the_tree {σ : Type} (sep : Char)
    (remote : Remote σ) (st : σ) (t : FsNode) (uri p : Str) (tr : List Request) (st2 : σ)
    (hwf : wfTree sep t = true) (hp : wfPath sep p = true)
    (hok : copy_artifacts sep remote (some t) st uri p = (tr, st2, Except.ok ())) :
    (tr.map Request.endpoint).Perm
      ((treeFiles t).map (fun e => specEndpoint (get_dbfs_endpoint uri p) e.1 e.2.1)) := by
  have h1 : runSeq (fileStep sep remote uri p (get_dbfs_endpoint uri p)) st
      (walkFileList t) = (tr, st2, Except.ok ()) := hok
  have htr : tr = (walkFileList t).map (fileReq sep uri p (get_dbfs_endpoint uri p)) := by
    have h2 := runSeq_ok_trace (fileStep sep remote uri p (get_dbfs_endpoint uri p))
      (fileReq sep uri p (get_dbfs_endpoint uri p))
      (fun s a => fileStep_fst sep remote uri p (get_dbfs_endpoint uri p) s a)
      (walkFileList t) st (by rw [h1])
    rw [h1] at h2
    exact h2
  rw [htr, List.map_map]
  have hcong : (walkFileList t).map
      (Request.endpoint ∘ fileReq sep uri p (get_dbfs_endpoint uri p)) =
      (walkFileList t).map (fun e => specEndpoint (get_dbfs_endpoint uri p) e.1 e.2.1) := by
    apply List.map_congr_left
    intro e he
    have hwfe := walk_wf sep t hwf e he
    exact fileReq_endpoint sep uri p e.1 e.2.1 e.2.2 hp hwfe.1 hwfe.2
  rw [hcong]
  exact (walk_perm t).map _

/-- Witness for C1 at the spec's own example. -/
theorem copy_artifacts_uploads_exactly_the_tree_witness :
    ((exampleTrace.map Request.endpoint).Perm
      ((treeFiles exampleTree).map (fun e =>
        specEndpoint (get_dbfs_endpoint "dbfs:/registry/run123".data "model".data)
          e.1 e.2.1))) :=
  copy_artifacts_uploads_exactly_the_tree '/' dbfsRemote [] exampleTree
    "dbfs:/registry/run123".data "model".data exampleTrace exampleState
    (by decide) (by decide) (by rfl)

/-- C2 counterexample: with a missing local source directory,
`copy_artifacts` returns normally with an empty request trace — no
`NotFoundError` (nor any other error) is raised. -/
theorem missing_dir_no_error_cex :
    copy_artifacts '/' dbfsRemote none ([] : List Str) "dbfs:/u".data "model".data
      = ([], [], Except.ok ()) := rfl

/-- C2 (amended): when the resolved local source directory does not exist,
`copy_artifacts` raises nothing: `os.walk` yields no entries, so the call
attempts zero uploads and returns normally. -/
theorem missing_dir_returns_ok {σ : Type} (sep : Char) (remote : Remote σ)
    (st : σ) (uri p : Str) :
    copy_artifacts sep remote none st uri p = ([], st, Except.ok ()) := rfl

/-- C3: when the remote answers an upload with an error whose message
contains "File already exists", `_copy_artifact` swallows it and returns
normally, and the run continues with the remaining files. -/
theorem conflict_swallowed_continues {σ : Type} (sep : Char) (remote : Remote σ)
    (uri p ld : Str) (st st2 : σ) (a : Entry) (rest : List Entry) (e : MlflowException)
    (hrem : remote st (fileReq sep uri p ld a) = (Except.error e, st2))
    (hmsg : hasSubstr conflictMsg e.message = true) :
    fileStep sep remote uri p ld st a = (fileReq sep uri p ld a, st2, Except.ok ()) ∧
    runSeq (fileStep sep remote uri p ld) st (a :: rest) =
      (fileReq sep uri p ld a :: (runSeq (fileStep sep remote uri p ld) st2 rest).1,
       (runSeq (fileStep sep remote uri p ld) st2 rest).2.1,
       (runSeq (fileStep sep remote uri p ld) st2 rest).2.2) := by
  have hstep : fileStep sep remote uri p ld st a =
      (fileReq sep uri p ld a, st2, Except.ok ()) := by
    rw [fileStep_spec, hrem]
    simp [hmsg]
  refine ⟨hstep, ?_⟩
  rw [runSeq_cons_ok _ _ _ _ () (by rw [hstep]), hstep]

/-- Witness for C3: a conflict on the first of two files is swallowed and
the second file is still processed. -/
theorem conflict_swallowed_continues_witness :
    fileStep '/' (fun (st : Unit) _ => (Except.error ⟨"File already exists.".data⟩, st))
        "dbfs:/u".data "m".data "/dbfs/u/m".data () (([] : List Str), "f".data, [1]) =
      (fileReq '/' "dbfs:/u".data "m".data "/dbfs/u/m".data (([] : List Str), "f".data, [1]),
        (), Except.ok ()) :=
  (conflict_swallowed_continues '/'
    (fun (st : Unit) _ => (Except.error ⟨"File already exists.".data⟩, st))
    "dbfs:/u".data "m".data "/dbfs/u/m".data () () (([] : List Str), "f".data, [1])
    [(([] : List Str), "g".data, [2])] ⟨"File already exists.".data⟩
    (by rfl) (by decide)).1

/-- C4: an upload failure whose message does not contain "File already
exists" aborts the run at that file: the trace records only the failing
request, and no later file is attempted, whatever files remain. -/
theorem fatal_error_aborts {σ : Type} (sep : Char) (remote : Remote σ)
    (uri p ld : Str) (st st2 : σ) (a : Entry) (rest : List Entry) (e : MlflowException)
    (hrem : remote st (fileReq sep uri p ld a) = (Except.error e, st2))
    (hmsg : hasSubstr conflictMsg e.message = false) :
    runSeq (fileStep sep remote uri p ld) st (a :: rest) =
      ([fileReq sep uri p ld a], st2, Except.error (PyExc.nameError "throw".data)) := by
  have hstep : fileStep sep remote uri p ld st a =
      (fileReq sep uri p ld a, st2, Except.error (PyExc.nameError "throw".data)) := by
    rw [fileStep_spec, hrem]
    simp [hmsg]
  rw [runSeq_cons_error _ _ _ _ _ (by rw [hstep]), hstep]

/-- Witness for C4: a quota failure on the first of two files stops the run
with only that one request attempted. -/
theorem fatal_error_aborts_witness :
    runSeq (fileStep '/' (fun (st : Unit) _ => (Except.error ⟨"QUOTA_EXCEEDED".data⟩, st))
        "dbfs:/u".data "m".data "/dbfs/u/m".data) ()
      [(([] : List Str), "f".data, [1]), (([] : List Str), "g".data, [2])] =
      ([fileReq '/' "dbfs:/u".data "m".data "/dbfs/u/m".data (([] : List Str), "f".data, [1])],
        (), Except.error (PyExc.nameError "throw".data)) :=
  fatal_error_aborts '/' (fun (st : Unit) _ => (Except.error ⟨"QUOTA_EXCEEDED".data⟩, st))
    "dbfs:/u".data "m".data "/dbfs/u/m".data () () (([] : List Str), "f".data, [1])
    [(([] : List Str), "g".data, [2])] ⟨"QUOTA_EXCEEDED".data⟩ (by rfl) (by decide)

/-- C5 (code bug): on a non-conflict remote error the handler on source
line 113 evaluates the undefined name `throw`, so the caller receives a
`NameError`, not the original `MlflowException` value. -/
theorem nonconflict_error_not_propagated :
    (copy_artifact '/' (fun (st : Unit) _ => (Except.error ⟨"BAD_REQUEST".data⟩, st)) ()
        "/dbfs/u/m/f".data [1] "dbfs:/u".data "m".data).2.2 =
      Except.error (PyExc.nameError "throw".data) ∧
    PyExc.nameError "throw".data ≠ PyExc.mlflow ⟨"BAD_REQUEST".data⟩ :=
  ⟨rfl, by decide⟩

/-- C6: a zero-size file is uploaded with the empty-string body and the
file object is never opened or streamed; a non-zero-size file is uploaded
by streaming its bytes. -/
theorem uploadOne_body_policy (sep : Char) (uri ap lf : Str) (content : List Nat) :
    (content.length = 0 →
      (requestFor sep uri ap lf content).body = Body.str [] ∧
      ∀ c, (requestFor sep uri ap lf content).body ≠ Body.stream c) ∧
    (content.length ≠ 0 →
      (requestFor sep uri ap lf content).body = Body.stream content) := by
  constructor
  · intro hz
    rw [requestFor_body, if_pos hz]
    exact ⟨rfl, by intro c h; exact Body.noConfusion h⟩
  · intro hz
    rw [requestFor_body, if_neg hz]

/-- Witness for C6 at an empty and a one-byte file. -/
theorem uploadOne_body_policy_witness :
    (requestFor '/' "dbfs:/u".data "m".data "/dbfs/u/m/f".data []).body = Body.str [] ∧
    (requestFor '/' "dbfs:/u".data "m".data "/dbfs/u/m/g".data [7]).body = Body.stream [7] :=
  ⟨((uploadOne_body_policy '/' "dbfs:/u".data "m".data "/dbfs/u/m/f".data []).1 rfl).1,
   (uploadOne_body_policy '/' "dbfs:/u".data "m".data "/dbfs/u/m/g".data [7]).2 (by decide)⟩

/-- C7: against the modelled DBFS store, a second `copy_artifacts` run over
the same unchanged tree completes normally: every upload resolves through
the already-exists conflict path, the store is unchanged, and the same
requests are issued. -/
theorem copy_artifacts_idempotent (sep : Char) (t : FsNode) (uri p : Str)
    (st0 st1 : List Str) (tr : List Request)
    (h1 : copy_artifacts sep dbfsRemote (some t) st0 uri p = (tr, st1, Except.ok ())) :
    copy_artifacts sep dbfsRemote (some t) st1 uri p = (tr, st1, Except.ok ()) := by
  have hrs : runSeq (fileStep sep dbfsRemote uri p (get_dbfs_endpoint uri p)) st0
      (walkFileList t) = (tr, st1, Except.ok ()) := h1
  have hcov := (runSeq_dbfs_ok_covers sep uri p (get_dbfs_endpoint uri p)
    (walkFileList t) st0 (by rw [hrs])).1
  rw [hrs] at hcov
  have htr : tr = (walkFileList t).map (fileReq sep uri p (get_dbfs_endpoint uri p)) := by
    have h2 := runSeq_ok_trace (fileStep sep dbfsRemote uri p (get_dbfs_endpoint uri p))
      (fileReq sep uri p (get_dbfs_endpoint uri p))
      (fun s a => fileStep_fst sep dbfsRemote uri p (get_dbfs_endpoint uri p) s a)
      (walkFileList t) st0 (by rw [hrs])
    rw [hrs] at h2
    exact h2
  have hall := runSeq_dbfs_all_exist sep uri p (get_dbfs_endpoint uri p)
    (walkFileList t) st1 (fun e he => hcov e he)
  show runSeq (fileStep sep dbfsRemote uri p (get_dbfs_endpoint uri p)) st1
      (walkFileList t) = (tr, st1, Except.ok ())
  rw [hall, htr]

/-- Witness for C7: a second run over the example tree. -/
theorem copy_artifacts_idempotent_witness :
    copy_artifacts '/' dbfsRemote (some exampleTree) exampleState
        "dbfs:/registry/run123".data "model".data =
      (exampleTrace, exampleState, Except.ok ()) :=
  copy_artifacts_idempotent '/' exampleTree "dbfs:/registry/run123".data "model".data
    [] exampleState exampleTrace (by rfl)

/-- C8: every request `copy_artifacts` issues carries
`allow_redirects=False`, on the empty-body path and the streamed path
alike. -/
theorem all_requests_disable_redirects {σ : Type} (sep : Char) (remote : Remote σ)
    (tree : Option FsNode) (st : σ) (uri p : Str) (req : Request)
    (hmem : req ∈ (copy_artifacts sep remote tree st uri p).1) :
    req.allowRedirects = false := by
  cases tree with
  | none => exact absurd (show req ∈ ([] : List Request) from hmem) (by simp)
  | some t =>
      exact runSeq_trace_redirects sep remote uri p (get_dbfs_endpoint uri p)
        (walkFileList t) st req hmem

/-- Witness for C8: the first example request. -/
theorem all_requests_disable_redirects_witness :
    ({ endpoint := "/dbfs/registry/run123/model/MLmodel".data, method := "POST".data,
       body := Body.stream [77], allowRedirects := false } : Request).allowRedirects
      = false :=
  all_requests_disable_redirects '/' dbfsRemote (some exampleTree) []
    "dbfs:/registry/run123".data "model".data _ (by
      rw [show (copy_artifacts '/' dbfsRemote (some exampleTree) []
        "dbfs:/registry/run123".data "model".data).1 = exampleTrace from rfl]
      exact List.mem_cons_self _ _)

/-- C9: a non-existent source directory, or one with no files anywhere
under it, makes `copy_artifacts` return normally with zero uploads
attempted and no error. -/
theorem no_files_no_uploads {σ : Type} (sep : Char) (remote : Remote σ) (st : σ)
    (uri p : Str) (tree : Option FsNode)
    (h : tree = none ∨ ∃ t, tree = some t ∧ treeFiles t = []) :
    copy_artifacts sep remote tree st uri p = ([], st, Except.ok ()) := by
  rcases h with h | ⟨t, ht, htf⟩
  · rw [h]
    rfl
  · rw [ht]
    have hw : walkFileList t = [] := List.Perm.eq_nil (htf ▸ walk_perm t)
    show runSeq (fileStep sep remote uri p (get_dbfs_endpoint uri p)) st
        (walkFileList t) = ([], st, Except.ok ())
    rw [hw]
    rfl

/-- Witness for C9: a directory that contains only an empty subdirectory. -/
theorem no_files_no_uploads_witness :
    copy_artifacts '/' dbfsRemote (some (FsNode.dir [("e".data, FsNode.dir [])]))
        ([] : List Str) "dbfs:/u".data "model".data = ([], [], Except.ok ()) :=
  no_files_no_uploads '/' dbfsRemote [] "dbfs:/u".data "model".data
    (some (FsNode.dir [("e".data, FsNode.dir [])]))
    (Or.inr ⟨FsNode.dir [("e".data, FsNode.dir [])], rfl, rfl⟩)

/-- C10: `_get_dbfs_endpoint` is insensitive to trailing slashes on
`artifact_uri` and to a single leading slash on `artifact_path`: the
normalized spellings map to the same endpoint. -/
theorem get_dbfs_endpoint_normalized (uri p : Str) (k : Nat)
    (hp : p.head? ≠ some '/') :
    get_dbfs_endpoint (uri ++ List.replicate k '/') p = get_dbfs_endpoint uri p ∧
    get_dbfs_endpoint uri ('/' :: p) = get_dbfs_endpoint uri p := by
  constructor
  · unfold get_dbfs_endpoint
    rw [show rstripSlash (uri ++ List.replicate k '/') = rstripSlash uri by
      unfold rstripSlash
      rw [List.reverse_append, List.reverse_replicate,
        dropWhile_all_append _ (List.replicate k '/') uri.reverse
          (fun a ha => by
            rw [(List.mem_replicate.mp ha).2]
            simp)]]
  · unfold get_dbfs_endpoint
    rw [strip_prefix_slash_cons, strip_prefix_slash_of_head_ne p hp]

/-- Witness for C10 at a doubly-slashed uri and a slashed path. -/
theorem get_dbfs_endpoint_normalized_witness :
    get_dbfs_endpoint ("dbfs:/u".data ++ List.replicate 2 '/') "model".data =
      get_dbfs_endpoint "dbfs:/u".data "model".data ∧
    get_dbfs_endpoint "dbfs:/u".data ('/' :: "model".data) =
      get_dbfs_endpoint "dbfs:/u".data "model".data :=
  get_dbfs_endpoint_normalized "dbfs:/u".data "model".data 2 (by decide)

end ArtifactSync
